import Mathlib

/-!
Verification of the retrieval-and-chunking core of the Runops runbook RAG
assistant.

Python strings are modelled as `List Char` (`Str`), Python floats that only
ever carry relevance scores as `ℚ`, and the two `while` loops of the two
chunkers with an explicit fuel parameter: a result of `none` means the loop
did not terminate within the given fuel, and the fuel supplied by the
top-level wrappers (`words.length + 1`) exceeds the iteration count of every
terminating run of either loop, so `none` from the wrappers models genuine
divergence of the Python loop.

External collaborators (the sentence-transformers embedding model, the
ChromaDB vector store, the Azure OpenAI synthesizer) are modelled at their
call boundary: the vector query outcome is a parameter of type
`Except Unit _` (an `IndexUnavailable`-style failure or a result list), and
the store mutation performed by the indexing pipeline is modelled by the
spec's Vector Index upsert contract.
-/

/-- Python strings are modelled as lists of characters. -/
abbrev Str := List Char

/-- Accumulator-style splitter behind `splitWords`.  The accumulator holds the
current word reversed; whitespace closes the current word. -/
def splitWordsAux : List Char → List Char → List Str
  | [], acc => if acc = [] then [] else [acc.reverse]
  | c :: cs, acc =>
    if c.isWhitespace then
      if acc = [] then splitWordsAux cs [] else acc.reverse :: splitWordsAux cs []
    else splitWordsAux cs (c :: acc)

/-- Model of Python `str.split()` (no separator argument): split on runs of
whitespace, discarding empty pieces.  Used by `chunk_text` in
src/indexing_pipeline_efficient.py line 51 (`words = text.split()`). -/
def splitWords (s : Str) : List Str := splitWordsAux s []

/-- Model of Python `' '.join(ws)`: interleave a single space between the
words (src/indexing_pipeline_efficient.py line 59). -/
def joinWords : List Str → Str
  | [] => []
  | [w] => w
  | w :: ws => w ++ ' ' :: joinWords ws

/-- Model of Python `str.lower()`, character by character. -/
def toLowerStr (s : Str) : Str := s.map Char.toLower

/-- Model of Python `str.strip()`: drop leading and trailing whitespace. -/
def stripStr (s : Str) : Str :=
  ((s.dropWhile Char.isWhitespace).reverse.dropWhile Char.isWhitespace).reverse

/-- Accumulator-style whitespace collapser: the flag records whether the
previous character was part of a whitespace run. -/
def collapseWSAux : Bool → List Char → List Char
  | _, [] => []
  | prevWS, c :: cs =>
    if c.isWhitespace then
      if prevWS then collapseWSAux true cs else ' ' :: collapseWSAux true cs
    else c :: collapseWSAux false cs

/-- Model of Python `re.sub(r'\s+', ' ', s)`: every maximal run of whitespace
becomes a single space (src/simple_rag.py line 283). -/
def collapseWS (s : Str) : Str := collapseWSAux false s

/- ### Chunking (src/indexing_pipeline_efficient.py, EfficientRunbookIndexer.chunk_text, lines 49-64)

The while loop of `chunk_text` keeps a single mutable variable `start` and
appends `' '.join(words[start:end])` with `end = min(start + chunk_size,
len(words))` on every iteration, breaking after the iteration in which
`end == len(words)` and otherwise continuing at `start = end - overlap`.
`chunkRangesLoop` records the `(start, end)` window of each iteration; the
join of the corresponding slice is applied by `chunk_text` below, so the
emitted chunk list is exactly the source's.  `fuel` bounds the number of
iterations that are still modelled; `none` means the loop ran out of fuel. -/
def chunkRangesLoop (size ov len : Nat) : Nat → Nat → Option (List (Nat × Nat))
  | 0, _ => none
  | fuel + 1, start =>
    if start < len then
      if min (start + size) len = len then some [(start, min (start + size) len)]
      else
        (chunkRangesLoop size ov len fuel (min (start + size) len - ov)).map
          (fun rs => (start, min (start + size) len) :: rs)
    else some []

/-- Window list of the efficient chunker's loop started at `start = 0`.  The
fuel `len + 1` exceeds the iteration count of every terminating run of the
loop (each iteration that does not break strictly increases `start`), so a
`none` result models divergence of the Python loop. -/
def chunkRanges (size ov len : Nat) : Option (List (Nat × Nat)) :=
  chunkRangesLoop size ov len (len + 1) 0

/-- The chunk text of one window: `' '.join(words[start:end])`
(src/indexing_pipeline_efficient.py line 59; Python `words[start:end]` is
`(words.drop start).take (end - start)` for in-range indices). -/
def chunkOfRange (words : List Str) (p : Nat × Nat) : Str :=
  joinWords ((words.drop p.1).take (p.2 - p.1))

/-- Model of `EfficientRunbookIndexer.chunk_text`
(src/indexing_pipeline_efficient.py lines 49-64): split into words, return
the whole text as a single chunk if it has at most `chunk_size` words,
otherwise run the sliding-window loop. -/
def chunk_text (chunk_size ov : Nat) (text : Str) : Option (List Str) :=
  if (splitWords text).length ≤ chunk_size then some [text]
  else
    (chunkRanges chunk_size ov (splitWords text).length).map
      (fun rs => rs.map (chunkOfRange (splitWords text)))

/- ### Legacy chunker (src/test/indexing_pipeline.py, RunbookIndexer.chunk_text, lines 55-77)

This older variant appends the chunk, then sets `start = end - overlap` and
breaks only when the new `start` reaches `len(words)`; after the iteration
with `end == len(words)` the new start is `len(words) - overlap`, which for
`overlap ≥ 1` is still below `len(words)`, so the loop keeps re-emitting the
final window.  Same fuel convention as `chunkRangesLoop`. -/
def testChunkLoop (size ov len : Nat) : Nat → Nat → Option (List (Nat × Nat))
  | 0, _ => none
  | fuel + 1, start =>
    if start < len then
      (if len ≤ min (start + size) len - ov then some []
       else testChunkLoop size ov len fuel (min (start + size) len - ov)).map
        (fun rs => (start, min (start + size) len) :: rs)
    else some []

/-- Model of `RunbookIndexer.chunk_text` (src/test/indexing_pipeline.py lines
55-77), including its `if not text: return []` guard. -/
def test_chunk_text (size ov : Nat) (text : Str) : Option (List Str) :=
  if text = [] then some []
  else if (splitWords text).length ≤ size then some [text]
  else
    (testChunkLoop size ov (splitWords text).length ((splitWords text).length + 1) 0).map
      (fun rs => rs.map (chunkOfRange (splitWords text)))

/-- Configuration part of `EfficientRunbookIndexer`. -/
structure EfficientRunbookIndexer where
  chunk_size : Nat
  overlap : Nat
deriving DecidableEq

/-- Model of `EfficientRunbookIndexer.__init__`
(src/indexing_pipeline_efficient.py lines 22-40): the constructor stores
`chunk_size` and `overlap` without any validation; the `Except` result type
leaves room for a configuration error, which the source never raises. -/
def indexerInit (chunk_size overlap : Nat) : Except Unit EfficientRunbookIndexer :=
  .ok ⟨chunk_size, overlap⟩

/- ### Indexing pipeline storage (src/indexing_pipeline_efficient.py, lines 66-118) -/

/-- Decimal digit characters of a natural number, as produced by Python's
f-string formatting of `i` in `f"..._{i}"`. -/
def natDigits (n : Nat) : Str := (Nat.toDigits 10 n)

/-- Record id of one chunk: `f"{runbook_id}_{i}"`
(src/indexing_pipeline_efficient.py line 84). -/
def chunkId (docId : Str) (i : Nat) : Str := docId ++ '_' :: natDigits i

/-- Chunk records of one document as prepared by `process_runbook`
(src/indexing_pipeline_efficient.py lines 82-95), reduced to the id and the
chunk text; the embedding and the remaining metadata are computed outside the
store-interaction logic the claims are about. -/
def chunk_datas_of (docId : Str) (chunks : List Str) : List (Str × Str) :=
  ((List.range chunks.length).zip chunks).map (fun p => (chunkId docId p.1, p.2))

/-- The vector store content: a list of (id, record) pairs in insertion
order. -/
abbrev Store := List (Str × Str)

/-- Ids held by a store, in order. -/
def storeKeys (s : Store) : List Str := s.map (fun e => e.1)

/-- Record held under an id, if any. -/
def lookupStore (s : Store) (k : Str) : Option Str :=
  (s.find? (fun e => decide (e.1 = k))).map (fun e => e.2)

/-- Modelled from the spec: the Vector Index collaborator's upsert contract
(spec section 4.4, "inserts or overwrites records keyed by id"); the store
itself is the external ChromaDB collection, not code of this repository.
An existing id has its record overwritten in place, a new id is appended. -/
def upsert1 (s : Store) (kv : Str × Str) : Store :=
  if kv.1 ∈ storeKeys s then s.map (fun e => if e.1 = kv.1 then kv else e)
  else s ++ [kv]

/-- Fold of `upsert1` over a batch of records, in order. -/
def upsertAll (s : Store) (kvs : List (Str × Str)) : Store := kvs.foldl upsert1 s

/-- Model of `EfficientRunbookIndexer.embed_and_store`
(src/indexing_pipeline_efficient.py lines 99-118): the batch of chunk records
is written to the collection keyed by the chunk ids, with no deletion of any
existing records beforehand.  The embedding call is external and does not
affect which ids/records are stored. -/
def embed_and_store (s : Store) (chunk_datas : List (Str × Str)) : Store :=
  upsertAll s chunk_datas

/- ### Query engine (src/simple_rag.py, SimpleRAGSystem, lines 190-473) -/

/-- A source document as the fallback search sees it (`runbooks` entries of
the loaded JSON, src/simple_rag.py lines 271-292). -/
structure Runbook where
  id : Str
  title : Str
  url : Str
  body : Str
deriving DecidableEq

/-- One search result dict as built by `search_chunks` or
`_fallback_text_search` (src/simple_rag.py lines 248-294). -/
structure SRResult where
  text : Str
  runbook_id : Str
  title : Str
  url : Str
  chunk_index : Nat
  relevance_score : ℚ
deriving DecidableEq

/-- One fallback search result (src/simple_rag.py lines 285-292): fixed
relevance score 1.0, first 500 characters of the body as text. -/
def fallbackResult (rb : Runbook) : SRResult :=
  { text := rb.body.take 500, runbook_id := rb.id, title := rb.title, url := rb.url,
    chunk_index := 0, relevance_score := 1 }

/-- Containment test of the fallback scan (src/simple_rag.py line 284):
`query_lower in text_clean` with `query_lower = query.lower().strip()` and
`text_clean = re.sub(r'\s+', ' ', text.lower())`. -/
def fallbackMatches (query : Str) (rb : Runbook) : Bool :=
  decide (stripStr (toLowerStr query) <:+: collapseWS (toLowerStr rb.body))

/-- Model of `SimpleRAGSystem._fallback_text_search` (src/simple_rag.py lines
269-294): lowercase and strip the query, keep the runbooks whose lowercased,
whitespace-collapsed body contains it, build a result for each and truncate
to `top_k`. -/
def fallback_text_search (runbooks : List Runbook) (query : Str) (top_k : Nat) :
    List SRResult :=
  ((runbooks.filter (fallbackMatches query)).map fallbackResult).take top_k

/-- Model of `SimpleRAGSystem.search_chunks` (src/simple_rag.py lines
248-267): the outcome of the external vector-collection query is a parameter;
a raised `IndexUnavailable`-style error (`.error`) is caught and answered by
the fallback text search instead of being propagated. -/
def search_chunks (vectorOutcome : Except Unit (List SRResult))
    (runbooks : List Runbook) (query : Str) (top_k : Nat) : List SRResult :=
  match vectorOutcome with
  | .ok rs => rs
  | .error _ => fallback_text_search runbooks query top_k

/-- Meaningful-result filter of `SimpleRAGSystem.process_query`
(src/simple_rag.py line 415): keep results whose relevance score is strictly
greater than 0.6. -/
def meaningful_results (results : List SRResult) : List SRResult :=
  results.filter (fun r => decide ((6 : ℚ)/10 < r.relevance_score))

/-- Provenance of the answer string: the canned short-query reply
(src/simple_rag.py line 402) or a call of `generate_answer` on a chunk list
(the synthesizer is external; it is identified by the chunks handed to it). -/
inductive AnswerSrc where
  | canned_short : AnswerSrc
  | synthesized : List SRResult → AnswerSrc
deriving DecidableEq

/-- Observable fields of the response dict of `SimpleRAGSystem.process_query`;
`none` models a key that is absent from the returned dict. -/
structure SRResponse where
  answer : AnswerSrc
  chunks_found : Nat
  suggest_creation : Option Bool
  sources : Option (List (Str × Str × ℚ))
deriving DecidableEq

/-- Model of `SimpleRAGSystem.process_query` (src/simple_rag.py lines
399-465) with `create_if_missing = False` (its default): reject empty or
short-after-strip queries with the canned reply before any search; otherwise
search (vector outcome and corpus are the parameters of the external calls),
filter to meaningful results, and either report no coverage with
`suggest_creation: True` and empty sources, or answer from the meaningful
results with sources `(title, url, relevance_score)` in result order. -/
def process_query (query : Str) (vectorOutcome : Except Unit (List SRResult))
    (runbooks : List Runbook) : SRResponse :=
  if query = [] ∨ (stripStr query).length < 3 then
    { answer := .canned_short, chunks_found := 0, suggest_creation := none, sources := none }
  else
    if search_chunks vectorOutcome runbooks query 5 = [] ∨
        (meaningful_results (search_chunks vectorOutcome runbooks query 5)).length = 0 then
      { answer := .synthesized [], chunks_found := (search_chunks vectorOutcome runbooks query 5).length,
        suggest_creation := some true, sources := some [] }
    else
      { answer := .synthesized (meaningful_results (search_chunks vectorOutcome runbooks query 5)),
        chunks_found := (meaningful_results (search_chunks vectorOutcome runbooks query 5)).length,
        suggest_creation := some false,
        sources := some ((meaningful_results (search_chunks vectorOutcome runbooks query 5)).map
          (fun r => (r.title, r.url, r.relevance_score))) }

/- ### Context formatting and sources (src/rag_processor.py, RAGProcessor) -/

/-- One retrieved chunk as `format_context_for_llm` and `extract_source_urls`
consume it (src/rag_processor.py lines 83-89). -/
structure RPChunk where
  content : Str
  runbook_id : Str
  runbook_title : Str
  runbook_url : Str
  relevance_score : ℚ
deriving DecidableEq

/-- One element of the context handed to the synthesizer: the two header
lines emitted at the first chunk of a runbook (the id records which runbook
the header belongs to), or one chunk body. -/
inductive ContextPart where
  | header : Str → Str → Str → ContextPart
  | body : Str → ContextPart
deriving DecidableEq

/-- Loop of `format_context_for_llm` (src/rag_processor.py lines 100-114)
with the `seen_runbooks` set as the second argument: the title/URL header of
a chunk's runbook is emitted only when its id has not been seen yet, and the
chunk content is always appended. -/
def fcGo : List RPChunk → List Str → List ContextPart
  | [], _ => []
  | c :: rest, seen =>
    if c.runbook_id ∈ seen then .body c.content :: fcGo rest seen
    else
      .header c.runbook_id c.runbook_title c.runbook_url :: .body c.content ::
        fcGo rest (c.runbook_id :: seen)

/-- Model of `RAGProcessor.format_context_for_llm` (src/rag_processor.py
lines 94-116). -/
def format_context_for_llm (chunks : List RPChunk) : List ContextPart :=
  fcGo chunks []

/-- One entry of the sources list built by `extract_source_urls`
(src/rag_processor.py lines 178-183). -/
structure RPSource where
  title : Str
  url : Str
  relevance : ℚ
deriving DecidableEq

/-- Loop of `extract_source_urls` (src/rag_processor.py lines 174-183): the
`sources` dict keeps, per runbook id, the title/url/relevance of the first
chunk encountered, in insertion order. -/
def esGo : List RPChunk → List Str → List RPSource
  | [], _ => []
  | c :: rest, seen =>
    if c.runbook_id ∈ seen then esGo rest seen
    else ⟨c.runbook_title, c.runbook_url, c.relevance_score⟩ :: esGo rest (c.runbook_id :: seen)

/-- Stable insertion (descending by relevance, a later-arriving equal element
goes after the earlier one), used to model Python's stable
`sorted(..., key=relevance, reverse=True)` (src/rag_processor.py line 186). -/
def insertDesc (x : RPSource) : List RPSource → List RPSource
  | [] => [x]
  | y :: ys => if y.relevance < x.relevance then x :: y :: ys else y :: insertDesc x ys

/-- Stable descending insertion sort, the model of Python's stable `sorted`
with `reverse=True`: any two stable sorts of the same list under the same key
agree, so this is exact. -/
def sortByRelevanceDesc (l : List RPSource) : List RPSource := l.foldr insertDesc []

/-- Model of `RAGProcessor.extract_source_urls` (src/rag_processor.py lines
170-187): deduplicate by runbook id keeping the first chunk's data, then sort
by descending relevance. -/
def extract_source_urls (chunks : List RPChunk) : List RPSource :=
  sortByRelevanceDesc (esGo chunks [])

/-- First chunk of each distinct runbook id, in first-occurrence order. -/
def dedupByDoc : List RPChunk → List Str → List RPChunk
  | [], _ => []
  | c :: rest, seen =>
    if c.runbook_id ∈ seen then dedupByDoc rest seen
    else c :: dedupByDoc rest (c.runbook_id :: seen)

/-- Modelled from the spec: section 4.6 step 5 describes the context as each
distinct document's header exactly once with the bodies of all of that
document's retrieved chunks concatenated in rank order beneath that header.
This definition follows those words; it is compared against
`format_context_for_llm`, which is translated from the source. -/
def groupedContext (chunks : List RPChunk) : List ContextPart :=
  (dedupByDoc chunks []).flatMap
    (fun c =>
      .header c.runbook_id c.runbook_title c.runbook_url ::
        ((chunks.filter (fun x => x.runbook_id = c.runbook_id)).map
          (fun x => .body x.content)))

/-- Divergence of the efficient chunker's loop from a given start: no amount
of fuel makes it terminate. -/
def chunkLoopDiverges (size ov len start : Nat) : Prop :=
  ∀ fuel, chunkRangesLoop size ov len fuel start = none

/-- Divergence of the legacy chunker's loop from a given start. -/
def testChunkLoopDiverges (size ov len start : Nat) : Prop :=
  ∀ fuel, testChunkLoop size ov len fuel start = none


/-- Number of header parts belonging to runbook id `d`. -/
def headerCount (d : Str) (parts : List ContextPart) : Nat :=
  parts.countP (fun p => match p with
    | .header i _ _ => decide (i = d)
    | .body _ => false)

/-- Chunk bodies of a context, in order. -/
def bodyTexts (parts : List ContextPart) : List Str :=
  parts.filterMap (fun p => match p with
    | .header _ _ _ => none
    | .body t => some t)


/- ### Word-level facts about splitting and joining -/

/-- Every word produced by the splitter is nonempty and free of whitespace,
provided the accumulated partial word is. -/
theorem splitWordsAux_words (s : List Char) :
    ∀ acc, (∀ c ∈ acc, c.isWhitespace = false) →
      ∀ w ∈ splitWordsAux s acc, w ≠ [] ∧ ∀ c ∈ w, c.isWhitespace = false := by
  induction s with
  | nil =>
    intro acc hacc w hw
    by_cases h : acc = []
    · simp [splitWordsAux, h] at hw
    · simp [splitWordsAux, h] at hw
      subst hw
      refine ⟨by simpa using h, ?_⟩
      intro c hc
      exact hacc c (by simpa using hc)
  | cons a t ih =>
    intro acc hacc w hw
    by_cases hws : a.isWhitespace
    · by_cases h : acc = []
      · rw [splitWordsAux, if_pos hws, if_pos h] at hw
        exact ih [] (by simp) w hw
      · rw [splitWordsAux, if_pos hws, if_neg h] at hw
        rcases List.mem_cons.mp hw with h1 | h1
        · subst h1
          refine ⟨by simpa using h, ?_⟩
          intro c hc
          exact hacc c (by simpa using hc)
        · exact ih [] (by simp) w h1
    · rw [splitWordsAux, if_neg hws] at hw
      refine ih (a :: acc) ?_ w hw
      intro c hc
      rcases List.mem_cons.mp hc with h1 | h1
      · subst h1; simpa using hws
      · exact hacc c h1
/-- Specialisation of `splitWordsAux_words` to `splitWords`. -/
theorem splitWords_words (s : Str) :
    ∀ w ∈ splitWords s, w ≠ [] ∧ ∀ c ∈ w, c.isWhitespace = false :=
  splitWordsAux_words s [] (by simp)

/-- Scanning a whitespace-free word just accumulates it reversed. -/
theorem splitWordsAux_append (w : List Char) (hw : ∀ c ∈ w, c.isWhitespace = false) :
    ∀ s acc, splitWordsAux (w ++ s) acc = splitWordsAux s (w.reverse ++ acc) := by
  induction w with
  | nil => intro s acc; simp
  | cons a t ih =>
    intro s acc
    have ha : a.isWhitespace = false := hw a (List.mem_cons_self a t)
    rw [List.cons_append, splitWordsAux, if_neg (by simp [ha])]
    rw [ih (fun c hc => hw c (List.mem_cons_of_mem a hc)) s (a :: acc)]
    simp

/-- Round trip: splitting the single-space join of nonempty, whitespace-free
words returns exactly those words.  This mirrors the Python fact
`' '.join(ws).split() == ws` for the word lists produced by `str.split()`. -/
theorem splitWords_joinWords :
    ∀ ws : List Str, (∀ w ∈ ws, w ≠ [] ∧ ∀ c ∈ w, c.isWhitespace = false) →
      splitWords (joinWords ws) = ws := by
  intro ws
  induction ws with
  | nil => intro; rfl
  | cons w rest ih =>
    intro h
    have hw := h w (List.mem_cons_self w rest)
    cases rest with
    | nil =>
      show splitWordsAux (joinWords [w]) [] = [w]
      have : joinWords [w] = w ++ [] := by simp [joinWords]
      rw [this, splitWordsAux_append w hw.2 [] []]
      simp [splitWordsAux, hw.1]
    | cons x rest' =>
      show splitWordsAux (joinWords (w :: x :: rest')) [] = w :: x :: rest'
      rw [show joinWords (w :: x :: rest') = w ++ ' ' :: joinWords (x :: rest') from rfl]
      rw [splitWordsAux_append w hw.2 _ []]
      rw [splitWordsAux, if_pos (by decide)]
      rw [if_neg (by simpa using hw.1)]
      have := ih (fun u hu => h u (List.mem_cons_of_mem w hu))
      rw [show splitWordsAux (joinWords (x :: rest')) [] = splitWords (joinWords (x :: rest')) from rfl, this]
      simp

/-- Splitting a chunk built from a slice of the word list recovers the
slice. -/
theorem splitWords_chunkOfRange (words : List Str)
    (h : ∀ w ∈ words, w ≠ [] ∧ ∀ c ∈ w, c.isWhitespace = false) (p : Nat × Nat) :
    splitWords (chunkOfRange words p) = (words.drop p.1).take (p.2 - p.1) := by
  refine splitWords_joinWords _ ?_
  intro w hw
  exact h w (List.drop_subset p.1 words (List.take_subset _ _ hw))

/- ### Invariants of the efficient chunker's loop -/

/-- Positional facts that hold of every window the loop emits, with no
assumption on the configuration (used where termination is not given). -/
theorem chunkRangesLoop_mem (size ov len : Nat) :
    ∀ fuel start rs, chunkRangesLoop size ov len fuel start = some rs →
      ∀ p ∈ rs, p.1 < len ∧ p.2 = min (p.1 + size) len := by
  intro fuel
  induction fuel with
  | zero => intro start rs h; exact absurd h (by simp [chunkRangesLoop])
  | succ f ih =>
    intro start rs h p hp
    by_cases hstart : start < len
    · by_cases hmin : min (start + size) len = len
      · rw [chunkRangesLoop, if_pos hstart, if_pos hmin] at h
        obtain rfl : [(start, min (start + size) len)] = rs := by simpa using h
        obtain rfl : p = (start, min (start + size) len) := by simpa using hp
        exact ⟨hstart, rfl⟩
      · rw [chunkRangesLoop, if_pos hstart, if_neg hmin] at h
        cases hrec : chunkRangesLoop size ov len f (min (start + size) len - ov) with
        | none => rw [hrec] at h; simp at h
        | some rs' =>
          rw [hrec] at h
          obtain rfl : (start, min (start + size) len) :: rs' = rs := by simpa using h
          rcases List.mem_cons.mp hp with h1 | h1
          · subst h1; exact ⟨hstart, rfl⟩
          · exact ih _ _ hrec p h1
    · rw [chunkRangesLoop, if_neg hstart] at h
      obtain rfl : ([] : List (Nat × Nat)) = rs := by simpa using h
      simp at hp

/-- Full invariant of the efficient chunker's loop under a valid
configuration: the loop terminates within `len - start` further iterations
and its window list starts at `start`, consists of windows
`(s, min (s + size) len)` with strictly advancing starts that are chained by
`next start = s + size - overlap`, ends with the unique window reaching
`len`, covers every index of `[start, len)`, and its last window either is
the very first one or spans strictly more than `overlap` words. -/
theorem chunkRangesLoop_sound (size ov len : Nat) (hov : ov < size) :
    ∀ fuel start, len - start < fuel → start < len →
      ∃ rs, chunkRangesLoop size ov len fuel start = some rs ∧
        rs.head? = some (start, min (start + size) len) ∧
        (∀ p ∈ rs, start ≤ p.1 ∧ p.1 < len ∧ p.2 = min (p.1 + size) len) ∧
        List.Chain' (fun p q : Nat × Nat =>
          p.1 + size < len ∧ p.2 = p.1 + size ∧ q.1 = p.1 + size - ov) rs ∧
        (∃ hne : rs ≠ [], (rs.getLast hne).2 = len ∧
          ((rs.getLast hne).1 = start ∨ ov + 1 ≤ len - (rs.getLast hne).1)) ∧
        (∀ j, start ≤ j → j < len → ∃ p ∈ rs, p.1 ≤ j ∧ j < p.2) := by
  intro fuel
  induction fuel with
  | zero => intro start hfuel; omega
  | succ f ih =>
    intro start hfuel hstart
    by_cases hmin : min (start + size) len = len
    · refine ⟨[(start, min (start + size) len)], ?_, rfl, ?_, ?_, ?_, ?_⟩
      · rw [chunkRangesLoop, if_pos hstart, if_pos hmin]
      · intro p hp
        obtain rfl : p = (start, min (start + size) len) := by simpa using hp
        exact ⟨le_refl _, hstart, rfl⟩
      · simp
      · exact ⟨by simp, by simpa using hmin, Or.inl rfl⟩
      · intro j hj1 hj2
        exact ⟨(start, min (start + size) len), by simp, hj1, by simpa [hmin] using hj2⟩
    · have hlt : start + size < len := by
        rcases Nat.lt_or_ge (start + size) len with h | h
        · exact h
        · exact absurd (Nat.min_eq_right h) hmin
      have hmineq : min (start + size) len = start + size := Nat.min_eq_left (Nat.le_of_lt hlt)
      have hs' : start + size - ov < len := by omega
      have hf' : len - (start + size - ov) < f := by omega
      obtain ⟨rs', hrec, hhead, hmem, hchain, ⟨hne, hlast2, hlast1⟩, hcov⟩ := ih (start + size - ov) hf' hs'
      refine ⟨(start, min (start + size) len) :: rs', ?_, rfl, ?_, ?_, ?_, ?_⟩
      · rw [chunkRangesLoop, if_pos hstart, if_neg hmin, hmineq] at *
        rw [hrec]
        rfl
      · intro p hp
        rcases List.mem_cons.mp hp with h1 | h1
        · subst h1; exact ⟨le_refl _, hstart, rfl⟩
        · obtain ⟨ha, hb, hc⟩ := hmem p h1
          exact ⟨by omega, hb, hc⟩
      · cases rs' with
        | nil => exact absurd rfl hne
        | cons a t =>
          obtain rfl : a = (start + size - ov, min (start + size - ov + size) len) := by
            simpa using hhead
          exact List.chain'_cons.mpr ⟨⟨hlt, by rw [hmineq], rfl⟩, hchain⟩
      · refine ⟨by simp, ?_, ?_⟩
        · rw [List.getLast_cons hne]; exact hlast2
        · rw [List.getLast_cons hne]
          rcases hlast1 with h1 | h1
          · right; omega
          · right; exact h1
      · intro j hj1 hj2
        by_cases hjs : j < start + size
        · exact ⟨(start, min (start + size) len), List.mem_cons_self _ _, hj1, by omega⟩
        · obtain ⟨p, hp1, hp2, hp3⟩ := hcov j (by omega) hj2
          exact ⟨p, List.mem_cons_of_mem _ hp1, hp2, hp3⟩

/-- Every window starts at or after the loop's entry start (valid
configuration). -/
theorem chunkRangesLoop_start_le (size ov len : Nat) (hov : ov < size) :
    ∀ fuel start rs, chunkRangesLoop size ov len fuel start = some rs →
      ∀ p ∈ rs, start ≤ p.1 := by
  intro fuel
  induction fuel with
  | zero => intro start rs h; exact absurd h (by simp [chunkRangesLoop])
  | succ f ih =>
    intro start rs h p hp
    by_cases hstart : start < len
    · by_cases hmin : min (start + size) len = len
      · rw [chunkRangesLoop, if_pos hstart, if_pos hmin] at h
        obtain rfl : [(start, min (start + size) len)] = rs := by simpa using h
        obtain rfl : p = (start, min (start + size) len) := by simpa using hp
        exact le_refl _
      · rw [chunkRangesLoop, if_pos hstart, if_neg hmin] at h
        cases hrec : chunkRangesLoop size ov len f (min (start + size) len - ov) with
        | none => rw [hrec] at h; simp at h
        | some rs' =>
          rw [hrec] at h
          obtain rfl : (start, min (start + size) len) :: rs' = rs := by simpa using h
          rcases List.mem_cons.mp hp with h1 | h1
          · subst h1; exact le_refl _
          · have := ih _ _ hrec p h1
            have hlt : start + size < len := by
              rcases Nat.lt_or_ge (start + size) len with hx | hx
              · exact hx
              · exact absurd (Nat.min_eq_right hx) hmin
            have : min (start + size) len - ov ≤ p.1 := this
            omega
    · rw [chunkRangesLoop, if_neg hstart] at h
      obtain rfl : ([] : List (Nat × Nat)) = rs := by simpa using h
      simp at hp

/-- The windows of a terminating run have strictly increasing starts (valid
configuration), hence in particular no window is emitted twice. -/
theorem chunkRangesLoop_pairwise (size ov len : Nat) (hov : ov < size) :
    ∀ fuel start rs, chunkRangesLoop size ov len fuel start = some rs →
      List.Pairwise (fun p q : Nat × Nat => p.1 < q.1) rs := by
  intro fuel
  induction fuel with
  | zero => intro start rs h; exact absurd h (by simp [chunkRangesLoop])
  | succ f ih =>
    intro start rs h
    by_cases hstart : start < len
    · by_cases hmin : min (start + size) len = len
      · rw [chunkRangesLoop, if_pos hstart, if_pos hmin] at h
        obtain rfl : [(start, min (start + size) len)] = rs := by simpa using h
        simp
      · rw [chunkRangesLoop, if_pos hstart, if_neg hmin] at h
        cases hrec : chunkRangesLoop size ov len f (min (start + size) len - ov) with
        | none => rw [hrec] at h; simp at h
        | some rs' =>
          rw [hrec] at h
          obtain rfl : (start, min (start + size) len) :: rs' = rs := by simpa using h
          refine List.pairwise_cons.mpr ⟨?_, ih _ _ hrec⟩
          intro q hq
          have h1 := chunkRangesLoop_start_le size ov len hov f _ _ hrec q hq
          have hlt : start + size < len := by
            rcases Nat.lt_or_ge (start + size) len with hx | hx
            · exact hx
            · exact absurd (Nat.min_eq_right hx) hmin
          have hmineq : min (start + size) len = start + size := Nat.min_eq_left (by omega)
          rw [hmineq] at h1
          show start < q.1
          omega
    · rw [chunkRangesLoop, if_neg hstart] at h
      obtain rfl : ([] : List (Nat × Nat)) = rs := by simpa using h
      simp

/-- Unfolding of `chunk_text` on the windowed branch. -/
theorem chunk_text_eq_map (size ov : Nat) (text : Str)
    (h : size < (splitWords text).length) :
    chunk_text size ov text =
      (chunkRanges size ov (splitWords text).length).map
        (fun rs => rs.map (chunkOfRange (splitWords text))) := by
  rw [chunk_text, if_neg (by omega)]

/-- With overlap equal to chunk size, the efficient loop never advances from
start 0 on a 401-word input. -/
theorem chunkLoopDiverges_400 : chunkLoopDiverges 400 400 401 0 := by
  intro fuel
  induction fuel with
  | zero => rfl
  | succ f ih => simp [chunkRangesLoop, ih]

/-- The legacy loop is stuck at start 4 for a 5-word input with chunk size 3
and overlap 1. -/
theorem testChunkLoop_stuck4 : testChunkLoopDiverges 3 1 5 4 := by
  intro fuel
  induction fuel with
  | zero => rfl
  | succ f ih => simp [testChunkLoop, ih]

/-- The legacy loop, started normally at 0, reaches the stuck state and hence
diverges on a 5-word input with chunk size 3 and overlap 1. -/
theorem testChunkLoop_stuck0 : testChunkLoopDiverges 3 1 5 0 := by
  intro fuel
  match fuel with
  | 0 => rfl
  | 1 => rfl
  | f + 2 =>
    show testChunkLoop 3 1 5 (f + 2) 0 = none
    simp [testChunkLoop, testChunkLoop_stuck4 f]

/-- C1 (amended): for every valid configuration (overlap < chunk size) and
every non-empty input text, `EfficientRunbookIndexer.chunk_text` terminates
and returns at least one chunk; on the windowed branch the window list has
strictly increasing window starts (so no window, in particular not the final
partial one, is emitted twice) and its last window ends exactly at the end of
the word sequence.  The legacy `RunbookIndexer.chunk_text` of
src/test/indexing_pipeline.py does not satisfy this: see the claim's
counterexample. -/
theorem chunk_text_terminates (size ov : Nat) (text : Str) (hov : ov < size)
    (_hne : text ≠ []) :
    ∃ cs, chunk_text size ov text = some cs ∧ 1 ≤ cs.length ∧
      (size < (splitWords text).length →
        ∃ rs, chunkRanges size ov (splitWords text).length = some rs ∧
          cs = rs.map (chunkOfRange (splitWords text)) ∧
          List.Pairwise (fun p q : Nat × Nat => p.1 < q.1) rs ∧
          ∃ hrs : rs ≠ [], (rs.getLast hrs).2 = (splitWords text).length) := by
  by_cases hle : (splitWords text).length ≤ size
  · refine ⟨[text], by rw [chunk_text, if_pos hle], by simp, fun h => absurd h (by omega)⟩
  · have hlt : size < (splitWords text).length := by omega
    have hlen0 : 0 < (splitWords text).length := by omega
    obtain ⟨rs, hloop, hhead, hmem, hchain, ⟨hrsne, hlast2, hlast1⟩, hcov⟩ :=
      chunkRangesLoop_sound size ov (splitWords text).length hov
        ((splitWords text).length + 1) 0 (by omega) hlen0
    have hranges : chunkRanges size ov (splitWords text).length = some rs := hloop
    refine ⟨rs.map (chunkOfRange (splitWords text)), ?_, ?_, fun _ =>
      ⟨rs, hranges, rfl, chunkRangesLoop_pairwise size ov _ hov _ _ _ hloop, hrsne, hlast2⟩⟩
    · rw [chunk_text_eq_map size ov text hlt, hranges]
      rfl
    · cases rs with
      | nil => exact absurd rfl hrsne
      | cons a t => simp

/-- Witness for C1's amended theorem: chunk size 3, overlap 1 on the 5-word
text "a b c d e". -/
theorem chunk_text_terminates_witness :
    1 < 3 ∧ ("a b c d e".toList ≠ []) ∧
      (∃ cs, chunk_text 3 1 ("a b c d e".toList) = some cs ∧ 1 ≤ cs.length ∧
        (3 < (splitWords ("a b c d e".toList)).length →
          ∃ rs, chunkRanges 3 1 (splitWords ("a b c d e".toList)).length = some rs ∧
            cs = rs.map (chunkOfRange (splitWords ("a b c d e".toList))) ∧
            List.Pairwise (fun p q : Nat × Nat => p.1 < q.1) rs ∧
            ∃ hrs : rs ≠ [],
              (rs.getLast hrs).2 = (splitWords ("a b c d e".toList)).length)) :=
  ⟨by decide, by decide, chunk_text_terminates 3 1 ("a b c d e".toList) (by decide) (by decide)⟩

/-- Counterexample to C1 as stated: under the perfectly valid configuration
chunk size 3, overlap 1, the legacy chunking function
`RunbookIndexer.chunk_text` (src/test/indexing_pipeline.py lines 55-77, one
of the claim's two cited implementations) does not terminate on the 5-word
input "a b c d e": after emitting the final window it moves `start` back to
`len - overlap` and re-emits the final window forever.  Its loop is fuelled
here; divergence is the statement that every fuel runs out. -/
theorem chunk_text_c1_counterexample :
    test_chunk_text 3 1 ("a b c d e".toList) = none ∧
      testChunkLoopDiverges 3 1 5 0 :=
  ⟨by decide, testChunkLoop_stuck0⟩

/-- C5: the claim asks that a configuration with overlap ≥ chunk size fail at
construction time; the source constructor accepts chunk_size = overlap = 400
without any check, and the chunker's loop then never advances on any 401-word
text (the claim is right, the code has no validation: code bug). -/
theorem indexerInit_no_validation :
    indexerInit 400 400 = .ok ⟨400, 400⟩ ∧ chunkLoopDiverges 400 400 401 0 :=
  ⟨rfl, chunkLoopDiverges_400⟩

set_option maxRecDepth 4000 in
/-- C6: under a valid configuration, on every text longer than the chunk
size, the last `overlap` words of each chunk equal the first `overlap` words
of the next chunk (with no exception, including the final chunk); moreover
with chunk size 400 and overlap 50 a 450-word text yields exactly the two
windows [0,400) and [350,450), hence exactly 2 chunks. -/
theorem chunk_overlap_exact :
    (∀ size ov text, ov < size → size < (splitWords text).length →
      ∀ cs, chunk_text size ov text = some cs →
        ∀ i (h : i + 1 < cs.length),
          (splitWords (cs.get ⟨i, by omega⟩)).drop
              ((splitWords (cs.get ⟨i, by omega⟩)).length - ov) =
            (splitWords (cs.get ⟨i + 1, h⟩)).take ov) ∧
    chunkRanges 400 50 450 = some [(0, 400), (350, 450)] ∧
    (∀ text, (splitWords text).length = 450 →
      ∀ cs, chunk_text 400 50 text = some cs → cs.length = 2) := by
  refine ⟨?_, by decide, ?_⟩
  · intro size ov text hov hlt cs hcs i h
    have hwords := splitWords_words text
    have hlen0 : 0 < (splitWords text).length := by omega
    obtain ⟨rs, hloop, hhead, hmem, hchain, _, hcov⟩ :=
      chunkRangesLoop_sound size ov (splitWords text).length hov
        ((splitWords text).length + 1) 0 (by omega) hlen0
    have hranges : chunkRanges size ov (splitWords text).length = some rs := hloop
    rw [chunk_text_eq_map size ov text hlt, hranges] at hcs
    obtain rfl : rs.map (chunkOfRange (splitWords text)) = cs := by simpa using hcs
    have hlenmap : (rs.map (chunkOfRange (splitWords text))).length = rs.length := by simp
    have hi1 : i + 1 < rs.length := by omega
    have hi0 : i < rs.length := by omega
    have hget : ∀ (j : Nat) (hj : j < (rs.map (chunkOfRange (splitWords text))).length),
        (rs.map (chunkOfRange (splitWords text))).get ⟨j, hj⟩ =
          chunkOfRange (splitWords text) (rs.get ⟨j, by simpa using hj⟩) := by
      intro j hj
      simp
    have hR := List.chain'_iff_get.mp hchain i (by omega)
    set p := rs.get ⟨i, hi0⟩ with hp
    set q := rs.get ⟨i + 1, hi1⟩ with hq
    obtain ⟨hpq1, hpq2, hpq3⟩ : p.1 + size < (splitWords text).length ∧
        p.2 = p.1 + size ∧ q.1 = p.1 + size - ov := hR
    have hpmem : p ∈ rs := List.get_mem rs i hi0
    have hqmem : q ∈ rs := List.get_mem rs (i + 1) hi1
    have hp2min := (hmem p hpmem).2.2
    have hq2min := (hmem q hqmem).2.2
    rw [hget i (by omega), hget (i + 1) (by omega)]
    rw [splitWords_chunkOfRange (splitWords text) hwords,
        splitWords_chunkOfRange (splitWords text) hwords]
    have hp21 : p.2 - p.1 = size := by omega
    rw [hp21]
    have hlen_take : (((splitWords text).drop p.1).take size).length = size := by
      rw [List.length_take, List.length_drop]
      omega
    rw [hlen_take, List.drop_take, List.drop_drop]
    rw [show size - (size - ov) = ov from by omega,
        show p.1 + (size - ov) = q.1 from by omega]
    rw [List.take_take]
    rw [show min ov (q.2 - q.1) = ov from by omega]
  · intro text h450 cs hcs
    have hlt : 400 < (splitWords text).length := by omega
    rw [chunk_text_eq_map 400 50 text hlt, h450] at hcs
    rw [show chunkRanges 400 50 450 = some [(0, 400), (350, 450)] from by decide] at hcs
    obtain rfl : [(0, 400), (350, 450)].map (chunkOfRange (splitWords text)) = cs := by
      simpa using hcs
    rfl

/-- Witness for C6: chunk size 3, overlap 1 on "a b c d e" gives chunks
"a b c" and "c d e", and the last word of chunk 0 is the first word of
chunk 1. -/
theorem chunk_overlap_exact_witness :
    1 < 3 ∧ 3 < (splitWords ("a b c d e".toList)).length ∧
      chunk_text 3 1 ("a b c d e".toList) = some ["a b c".toList, "c d e".toList] ∧
      (splitWords (["a b c".toList, "c d e".toList].get ⟨0, by decide⟩)).drop
          ((splitWords (["a b c".toList, "c d e".toList].get ⟨0, by decide⟩)).length - 1) =
        (splitWords (["a b c".toList, "c d e".toList].get ⟨1, by decide⟩)).take 1 :=
  ⟨by decide, by decide, by decide,
    chunk_overlap_exact.1 3 1 ("a b c d e".toList) (by decide) (by decide)
      ["a b c".toList, "c d e".toList] (by decide) 0 (by decide)⟩

/-- C7: chunking a text of at most `chunk_size` words returns exactly the
input as a single chunk, and chunking is idempotent on its own output: every
chunk a terminating run produces is returned unchanged as a single chunk when
chunked again with the same configuration. -/
theorem chunk_text_single (size ov : Nat) (text : Str) :
    ((splitWords text).length ≤ size → chunk_text size ov text = some [text]) ∧
    (∀ cs, chunk_text size ov text = some cs →
      ∀ c ∈ cs, chunk_text size ov c = some [c]) := by
  constructor
  · intro hle
    rw [chunk_text, if_pos hle]
  · intro cs hcs c hc
    by_cases hle : (splitWords text).length ≤ size
    · rw [chunk_text, if_pos hle] at hcs
      obtain rfl : [text] = cs := by simpa using hcs
      obtain rfl : c = text := by simpa using hc
      rw [chunk_text, if_pos hle]
    · have hlt : size < (splitWords text).length := by omega
      rw [chunk_text_eq_map size ov text hlt] at hcs
      cases hr : chunkRanges size ov (splitWords text).length with
      | none => rw [hr] at hcs; simp at hcs
      | some rs =>
        rw [hr] at hcs
        obtain rfl : rs.map (chunkOfRange (splitWords text)) = cs := by simpa using hcs
        obtain ⟨p, hpmem, rfl⟩ := List.mem_map.mp hc
        obtain ⟨hp1, hp2⟩ := chunkRangesLoop_mem size ov (splitWords text).length _ _ _ hr p hpmem
        have hwords := splitWords_words text
        have hsplit := splitWords_chunkOfRange (splitWords text) hwords p
        have hlen : (splitWords (chunkOfRange (splitWords text) p)).length ≤ size := by
          rw [hsplit, List.length_take, List.length_drop]
          omega
        rw [chunk_text, if_pos hlen]

/-- Witness for C7: "a b" has 2 ≤ 3 words and is returned whole; re-chunking
the first chunk of the two-chunk run on "a b c d e" returns it unchanged. -/
theorem chunk_text_single_witness :
    ((splitWords ("a b".toList)).length ≤ 3 ∧
      chunk_text 3 1 ("a b".toList) = some ["a b".toList]) ∧
    (chunk_text 3 1 ("a b c d e".toList) = some ["a b c".toList, "c d e".toList] ∧
      chunk_text 3 1 ("a b c".toList) = some ["a b c".toList]) :=
  ⟨⟨by decide, (chunk_text_single 3 1 ("a b".toList)).1 (by decide)⟩,
    ⟨by decide,
      (chunk_text_single 3 1 ("a b c d e".toList)).2
        ["a b c".toList, "c d e".toList] (by decide) ("a b c".toList) (by decide)⟩⟩

/-- C10: under a valid configuration, on the windowed branch the emitted
windows cover every word index of the input, the chunks are exactly the joins
of those windows, and when more than one chunk is produced the final chunk
holds at least `overlap + 1` words; on the short branch the single chunk is
the whole input. -/
theorem chunk_text_covers (size ov : Nat) (text : Str) (hov : ov < size) :
    ((splitWords text).length ≤ size → chunk_text size ov text = some [text]) ∧
    (size < (splitWords text).length →
      ∃ rs cs, chunkRanges size ov (splitWords text).length = some rs ∧
        chunk_text size ov text = some cs ∧
        cs = rs.map (chunkOfRange (splitWords text)) ∧
        (∀ j, j < (splitWords text).length → ∃ p ∈ rs, p.1 ≤ j ∧ j < p.2) ∧
        (1 < cs.length →
          ∃ c, cs.getLast? = some c ∧ ov + 1 ≤ (splitWords c).length)) := by
  constructor
  · intro hle
    rw [chunk_text, if_pos hle]
  · intro hlt
    have hlen0 : 0 < (splitWords text).length := by omega
    obtain ⟨rs, hloop, hhead, hmem, hchain, ⟨hrsne, hlast2, hlast1⟩, hcov⟩ :=
      chunkRangesLoop_sound size ov (splitWords text).length hov
        ((splitWords text).length + 1) 0 (by omega) hlen0
    have hranges : chunkRanges size ov (splitWords text).length = some rs := hloop
    refine ⟨rs, rs.map (chunkOfRange (splitWords text)), hranges, ?_, rfl,
      fun j hj => hcov j (Nat.zero_le j) hj, ?_⟩
    · rw [chunk_text_eq_map size ov text hlt, hranges]
      rfl
    · intro hlen1
      have hwords := splitWords_words text
      refine ⟨chunkOfRange (splitWords text) (rs.getLast hrsne), ?_, ?_⟩
      · rw [List.getLast?_map, List.getLast?_eq_getLast rs hrsne]
        rfl
      · have hlastmem : rs.getLast hrsne ∈ rs := List.getLast_mem hrsne
        obtain ⟨_, hl1, hl2⟩ := hmem _ hlastmem
        have hlast1ne : (rs.getLast hrsne).1 ≠ 0 := by
          have hpair := chunkRangesLoop_pairwise size ov
            (splitWords text).length hov _ _ _ hloop
          cases rs with
          | nil => exact absurd rfl hrsne
          | cons a rs' =>
            cases rs' with
            | nil => simp at hlen1
            | cons b t =>
              have ha : a = (0, min (0 + size) (splitWords text).length) := by
                simpa using hhead
              have ha1 : a.1 = 0 := by rw [ha]
              have hmem2 : (a :: b :: t).getLast hrsne ∈ b :: t := by
                rw [List.getLast_cons (List.cons_ne_nil b t)]
                exact List.getLast_mem (List.cons_ne_nil b t)
              have hlt2 := (List.pairwise_cons.mp hpair).1 _ hmem2
              omega
        have hsplit := splitWords_chunkOfRange (splitWords text) hwords (rs.getLast hrsne)
        rw [hsplit, List.length_take, List.length_drop]
        rcases hlast1 with h1 | h1
        · exact absurd h1 hlast1ne
        · omega

/-- Witness for C10: chunk size 3, overlap 1 on "a b c d e". -/
theorem chunk_text_covers_witness :
    1 < 3 ∧ 3 < (splitWords ("a b c d e".toList)).length ∧
      (∃ rs cs, chunkRanges 3 1 (splitWords ("a b c d e".toList)).length = some rs ∧
        chunk_text 3 1 ("a b c d e".toList) = some cs ∧
        cs = rs.map (chunkOfRange (splitWords ("a b c d e".toList))) ∧
        (∀ j, j < (splitWords ("a b c d e".toList)).length → ∃ p ∈ rs, p.1 ≤ j ∧ j < p.2) ∧
        (1 < cs.length →
          ∃ c, cs.getLast? = some c ∧ 1 + 1 ≤ (splitWords c).length)) :=
  ⟨by decide, by decide, (chunk_text_covers 3 1 ("a b c d e".toList) (by decide)).2 (by decide)⟩

/-- C3: the meaningful-result filter of `SimpleRAGSystem.process_query` keeps
exactly the results whose relevance score strictly exceeds 0.6; on scores
[0.9, 0.7, 0.5, 0.3] exactly 2 results pass; and whenever zero results pass
the threshold (and the query is long enough to be processed), the engine
returns the no-coverage response: the synthesizer is invoked with no chunks,
`suggest_creation` is `true` and the sources list is empty. -/
theorem meaningful_threshold :
    (∀ results r, r ∈ meaningful_results results ↔
      r ∈ results ∧ (6 : ℚ)/10 < r.relevance_score) ∧
    (∀ results : List SRResult, results.map (fun r => r.relevance_score) =
        [9/10, 7/10, 5/10, 3/10] → (meaningful_results results).length = 2) ∧
    (∀ query vec runbooks, ¬(query = [] ∨ (stripStr query).length < 3) →
      meaningful_results (search_chunks vec runbooks query 5) = [] →
        process_query query vec runbooks =
          { answer := .synthesized [],
            chunks_found := (search_chunks vec runbooks query 5).length,
            suggest_creation := some true, sources := some [] }) := by
  refine ⟨?_, ?_, ?_⟩
  · intro results r
    simp [meaningful_results, List.mem_filter]
  · intro results h
    have hcount := List.countP_map (fun x : ℚ => decide ((6:ℚ)/10 < x))
      (fun r : SRResult => r.relevance_score) results
    rw [h] at hcount
    have c09 : decide ((6:ℚ)/10 < 9/10) = true := decide_eq_true (by norm_num)
    have c07 : decide ((6:ℚ)/10 < 7/10) = true := decide_eq_true (by norm_num)
    have c05 : decide ((6:ℚ)/10 < 5/10) = false := decide_eq_false (by norm_num)
    have c03 : decide ((6:ℚ)/10 < 3/10) = false := decide_eq_false (by norm_num)
    simp only [Function.comp_def] at hcount
    rw [meaningful_results, ← List.countP_eq_length_filter, ← hcount]
    simp [List.countP, List.countP.go, c09, c07, c05, c03]
  · intro query vec runbooks hq hm
    simp only [process_query]
    rw [if_neg hq, if_pos (Or.inr (by rw [hm]; rfl))]

/-- Witness for C3: concrete result lists with scores [0.9,0.7,0.5,0.3], and
a well-formed query whose search returns nothing. -/
theorem meaningful_threshold_witness :
    (([⟨[], [], [], [], 0, 9/10⟩, ⟨[], [], [], [], 0, 7/10⟩, ⟨[], [], [], [], 0, 5/10⟩,
        ⟨[], [], [], [], 0, 3/10⟩] : List SRResult).map (fun r => r.relevance_score) =
        [9/10, 7/10, 5/10, 3/10] ∧
      (meaningful_results [⟨[], [], [], [], 0, 9/10⟩, ⟨[], [], [], [], 0, 7/10⟩,
        ⟨[], [], [], [], 0, 5/10⟩, ⟨[], [], [], [], 0, 3/10⟩]).length = 2) ∧
    (¬(("how to fix jenkins".toList : Str) = [] ∨
        (stripStr ("how to fix jenkins".toList)).length < 3) ∧
      meaningful_results (search_chunks (.ok []) [] ("how to fix jenkins".toList) 5) = [] ∧
      process_query ("how to fix jenkins".toList) (.ok []) [] =
        { answer := .synthesized [],
          chunks_found := (search_chunks (.ok []) [] ("how to fix jenkins".toList) 5).length,
          suggest_creation := some true, sources := some [] }) :=
  ⟨⟨rfl, meaningful_threshold.2.1 _ rfl⟩,
    ⟨by decide, rfl, meaningful_threshold.2.2 ("how to fix jenkins".toList) (.ok []) []
      (by decide) rfl⟩⟩

/-- C8 (amended): every query that is empty or whose whitespace-stripped form
is shorter than 3 characters is rejected with the canned short-query answer,
zero chunks found and no sources, and the response is entirely independent of
the vector index and the document corpus (no search is consulted).  The
claim's reading "3 non-whitespace characters" fails on the code: see the
counterexample with the query "a b". -/
theorem short_query_rejected (query : Str) (vec : Except Unit (List SRResult))
    (runbooks : List Runbook) (h : query = [] ∨ (stripStr query).length < 3) :
    process_query query vec runbooks =
      { answer := .canned_short, chunks_found := 0,
        suggest_creation := none, sources := none } ∧
    (∀ vec2 runbooks2, process_query query vec runbooks =
      process_query query vec2 runbooks2) := by
  constructor
  · simp only [process_query]
    rw [if_pos h]
  · intro vec2 runbooks2
    simp only [process_query]
    rw [if_pos h, if_pos h]

/-- Witness for C8's amended theorem: the query "ok". -/
theorem short_query_rejected_witness :
    (("ok".toList : Str) = [] ∨ (stripStr ("ok".toList)).length < 3) ∧
      process_query ("ok".toList) (.ok []) [] =
        { answer := .canned_short, chunks_found := 0,
          suggest_creation := none, sources := none } :=
  ⟨by decide, (short_query_rejected ("ok".toList) (.ok []) [] (by decide)).1⟩

/-- Counterexample to C8 as stated: the query "a b" has only 2 non-whitespace
characters, yet `len("a b".strip()) = 3`, so the engine does not reject it:
the query goes through search and the synthesizer is invoked on the retrieved
chunk rather than the canned short-query answer being returned. -/
theorem short_query_c8_counterexample :
    ((['a', ' ', 'b'] : Str).filter (fun c => !c.isWhitespace)).length = 2 ∧
      (process_query ['a', ' ', 'b']
          (.ok [⟨"t".toList, "A".toList, "T".toList, "U".toList, 0, 1⟩]) []).answer =
        .synthesized [⟨"t".toList, "A".toList, "T".toList, "U".toList, 0, 1⟩] := by
  refine ⟨by decide, ?_⟩
  have hq : ¬((['a', ' ', 'b'] : Str) = [] ∨ (stripStr ['a', ' ', 'b']).length < 3) := by
    decide
  have hscore : decide ((6:ℚ)/10 < (1:ℚ)) = true := decide_eq_true (by norm_num)
  have hmean : meaningful_results [⟨"t".toList, "A".toList, "T".toList, "U".toList, 0, 1⟩] =
      [⟨"t".toList, "A".toList, "T".toList, "U".toList, 0, 1⟩] := by
    simp [meaningful_results, hscore]
  have hsearch : search_chunks (.ok [⟨"t".toList, "A".toList, "T".toList, "U".toList, 0, 1⟩])
      [] ['a', ' ', 'b'] 5 = [⟨"t".toList, "A".toList, "T".toList, "U".toList, 0, 1⟩] := rfl
  simp only [process_query]
  rw [if_neg hq, hsearch, hmean]
  rw [if_neg (by simp)]

/-- C4 (amended): an `IndexUnavailable`-style failure of the vector query is
not propagated: `search_chunks` answers it with the fallback text scan, whose
every result carries the fixed relevance score 1.0 and which returns at most
`top_k` results; a document is returned exactly when its lowercased,
whitespace-collapsed body contains the lowercased stripped query (so a
document containing the literal query substring is returned whenever that
containment survives whitespace collapsing and at most `top_k` documents
match).  The claim's stronger reading — containment of the literal query in
the raw body suffices — fails: see the counterexample with a double-space
query. -/
theorem search_chunks_fallback :
    (∀ e runbooks query top_k,
      search_chunks (.error e) runbooks query top_k =
        fallback_text_search runbooks query top_k) ∧
    (∀ runbooks query top_k r, r ∈ fallback_text_search runbooks query top_k →
      r.relevance_score = 1) ∧
    (∀ runbooks query top_k,
      (fallback_text_search runbooks query top_k).length ≤ top_k) ∧
    (∀ runbooks query top_k rb, rb ∈ runbooks →
      stripStr (toLowerStr query) <:+: collapseWS (toLowerStr rb.body) →
      (runbooks.filter (fallbackMatches query)).length ≤ top_k →
      ∃ r ∈ fallback_text_search runbooks query top_k,
        r.runbook_id = rb.id ∧ r.url = rb.url ∧ r.relevance_score = 1) := by
  refine ⟨fun e runbooks query top_k => rfl, ?_, ?_, ?_⟩
  · intro runbooks query top_k r hr
    have hr2 := List.take_subset top_k _ hr
    obtain ⟨rb, _, rfl⟩ := List.mem_map.mp hr2
    rfl
  · intro runbooks query top_k
    exact List.length_take_le top_k _
  · intro runbooks query top_k rb hmem hinfix hlen
    have hfilter : rb ∈ runbooks.filter (fallbackMatches query) :=
      List.mem_filter.mpr ⟨hmem, decide_eq_true hinfix⟩
    have htake : ((runbooks.filter (fallbackMatches query)).map fallbackResult).take top_k =
        (runbooks.filter (fallbackMatches query)).map fallbackResult := by
      refine List.take_of_length_le ?_
      rw [List.length_map]
      exact hlen
    refine ⟨fallbackResult rb, ?_, rfl, rfl, rfl⟩
    rw [fallback_text_search, htake]
    exact List.mem_map_of_mem fallbackResult hfilter

/-- Witness for C4's amended theorem: a one-document corpus whose body
contains the query with no whitespace run. -/
theorem search_chunks_fallback_witness :
    (⟨"A".toList, "T".toList, "U".toList, "how to deploy".toList⟩ : Runbook) ∈
        [(⟨"A".toList, "T".toList, "U".toList, "how to deploy".toList⟩ : Runbook)] ∧
      stripStr (toLowerStr ("deploy".toList)) <:+:
        collapseWS (toLowerStr ("how to deploy".toList)) ∧
      ([(⟨"A".toList, "T".toList, "U".toList, "how to deploy".toList⟩ : Runbook)].filter
        (fallbackMatches ("deploy".toList))).length ≤ 5 ∧
      ∃ r ∈ fallback_text_search
          [(⟨"A".toList, "T".toList, "U".toList, "how to deploy".toList⟩ : Runbook)]
          ("deploy".toList) 5,
        r.runbook_id = "A".toList ∧ r.url = "U".toList ∧ r.relevance_score = 1 :=
  ⟨by decide, by decide, by decide,
    search_chunks_fallback.2.2.2
      [(⟨"A".toList, "T".toList, "U".toList, "how to deploy".toList⟩ : Runbook)]
      ("deploy".toList) 5 ⟨"A".toList, "T".toList, "U".toList, "how to deploy".toList⟩
      (by decide) (by decide) (by decide)⟩

/-- Counterexample to C4 as stated: the document body "deploy  now" (two
spaces) contains the literal query "deploy  now" as a substring, yet the
fallback matches the stripped query against the whitespace-collapsed body
"deploy now" and finds nothing, so the document is not returned. -/
theorem search_chunks_c4_counterexample :
    (("deploy  now".toList : Str) <:+:
        (⟨"A".toList, "T".toList, "U".toList, "deploy  now".toList⟩ : Runbook).body) ∧
      search_chunks (.error ())
        [(⟨"A".toList, "T".toList, "U".toList, "deploy  now".toList⟩ : Runbook)]
        ("deploy  now".toList) 5 = [] :=
  ⟨by decide, by decide⟩

/- ### Context/sources lemmas (C9) -/

/-- Header bookkeeping of the context loop: one header for each runbook id
that occurs in the chunk list and is not yet in the seen set. -/
theorem fcGo_headerCount (d : Str) :
    ∀ (chunks : List RPChunk) (seen : List Str),
      headerCount d (fcGo chunks seen) =
        if d ∈ seen then 0
        else if d ∈ chunks.map (fun c => c.runbook_id) then 1 else 0 := by
  intro chunks
  induction chunks with
  | nil =>
    intro seen
    by_cases h : d ∈ seen <;> simp [fcGo, headerCount, h]
  | cons c rest ih =>
    intro seen
    by_cases hc : c.runbook_id ∈ seen
    · rw [fcGo, if_pos hc]
      have : headerCount d (.body c.content :: fcGo rest seen) =
          headerCount d (fcGo rest seen) := by
        simp [headerCount, List.countP_cons]
      rw [this, ih seen]
      by_cases hd : d ∈ seen
      · simp [hd]
      · have hne : d ≠ c.runbook_id := fun h => hd (h ▸ hc)
        simp [hd, List.mem_cons, hne]
    · rw [fcGo, if_neg hc]
      by_cases hd : d = c.runbook_id
      · have hcount : headerCount d (.header c.runbook_id c.runbook_title c.runbook_url ::
            .body c.content :: fcGo rest (c.runbook_id :: seen)) =
            headerCount d (fcGo rest (c.runbook_id :: seen)) + 1 := by
          simp [headerCount, List.countP_cons, hd.symm]
        rw [hcount, ih (c.runbook_id :: seen)]
        have hdseen : d ∉ seen := by rw [hd]; exact hc
        simp [hdseen, List.mem_cons, hd]
        rw [if_neg hc]
      · have hd2 : ¬c.runbook_id = d := fun h => hd h.symm
        have hcount : headerCount d (.header c.runbook_id c.runbook_title c.runbook_url ::
            .body c.content :: fcGo rest (c.runbook_id :: seen)) =
            headerCount d (fcGo rest (c.runbook_id :: seen)) := by
          simp [headerCount, List.countP_cons, hd2]
        rw [hcount, ih (c.runbook_id :: seen)]
        by_cases hdseen : d ∈ seen
        · simp [hdseen, List.mem_cons, hd]
        · simp [hdseen, List.mem_cons, hd]

/-- The bodies of the context are exactly the chunk contents in input (rank)
order. -/
theorem fcGo_bodyTexts :
    ∀ (chunks : List RPChunk) (seen : List Str),
      bodyTexts (fcGo chunks seen) = chunks.map (fun c => c.content) := by
  intro chunks
  induction chunks with
  | nil => intro seen; rfl
  | cons c rest ih =>
    intro seen
    by_cases hc : c.runbook_id ∈ seen
    · rw [fcGo, if_pos hc]
      simp [bodyTexts, List.filterMap_cons] at ih ⊢
      exact ih seen
    · rw [fcGo, if_neg hc]
      simp [bodyTexts, List.filterMap_cons] at ih ⊢
      exact ih (c.runbook_id :: seen)

/-- Membership through the stable descending insertion. -/
theorem mem_insertDesc (x z : RPSource) :
    ∀ l, z ∈ insertDesc x l ↔ z = x ∨ z ∈ l := by
  intro l
  induction l with
  | nil => simp [insertDesc]
  | cons y ys ih =>
    rw [insertDesc]
    by_cases h : y.relevance < x.relevance
    · rw [if_pos h]
      simp [List.mem_cons]
    · rw [if_neg h]
      simp only [List.mem_cons, ih]
      tauto

/-- Inserting preserves descending sortedness. -/
theorem insertDesc_sorted (x : RPSource) :
    ∀ l, l.Sorted (fun a b => b.relevance ≤ a.relevance) →
      (insertDesc x l).Sorted (fun a b => b.relevance ≤ a.relevance) := by
  intro l
  induction l with
  | nil => intro; simp [insertDesc]
  | cons y ys ih =>
    intro hs
    obtain ⟨hy, hys⟩ := List.pairwise_cons.mp hs
    rw [insertDesc]
    by_cases h : y.relevance < x.relevance
    · rw [if_pos h]
      refine List.pairwise_cons.mpr ⟨?_, hs⟩
      intro z hz
      rcases List.mem_cons.mp hz with rfl | hz2
      · exact le_of_lt h
      · exact le_trans (hy z hz2) (le_of_lt h)
    · rw [if_neg h]
      refine List.pairwise_cons.mpr ⟨?_, ih hys⟩
      intro z hz
      rcases (mem_insertDesc x z ys).mp hz with rfl | hz2
      · exact le_of_not_lt h
      · exact hy z hz2

/-- The model of Python's stable descending sort produces a list sorted by
descending relevance. -/
theorem sortByRelevanceDesc_sorted (l : List RPSource) :
    (sortByRelevanceDesc l).Sorted (fun a b => b.relevance ≤ a.relevance) := by
  induction l with
  | nil => simp [sortByRelevanceDesc]
  | cons x xs ih => exact insertDesc_sorted x _ ih

/-- C9 (amended): in the context built by `format_context_for_llm`, each
distinct runbook id occurring among the retrieved chunks contributes its
title/URL header exactly once; the chunk bodies appear in retrieval (rank)
order as one stream, interleaved across documents rather than grouped beneath
their document's header (see the counterexample); and the sources list of
`extract_source_urls` is sorted by descending relevance. -/
theorem context_headers_and_sources :
    (∀ chunks d, d ∈ chunks.map (fun c => c.runbook_id) →
      headerCount d (format_context_for_llm chunks) = 1) ∧
    (∀ chunks, bodyTexts (format_context_for_llm chunks) =
      chunks.map (fun c => c.content)) ∧
    (∀ chunks, (extract_source_urls chunks).Sorted
      (fun a b => b.relevance ≤ a.relevance)) := by
  refine ⟨?_, ?_, ?_⟩
  · intro chunks d hd
    rw [format_context_for_llm, fcGo_headerCount d chunks []]
    simp [hd]
  · intro chunks
    rw [format_context_for_llm, fcGo_bodyTexts chunks []]
  · intro chunks
    exact sortByRelevanceDesc_sorted (esGo chunks [])

/-- Witness for C9's amended theorem: a three-chunk retrieval where runbook A
contributes two chunks around one chunk of runbook B. -/
theorem context_headers_and_sources_witness :
    (("A".toList : Str) ∈
        ([⟨"a1".toList, "A".toList, "TA".toList, "UA".toList, 1⟩,
          ⟨"b1".toList, "B".toList, "TB".toList, "UB".toList, 1⟩,
          ⟨"a2".toList, "A".toList, "TA".toList, "UA".toList, 1⟩] : List RPChunk).map
          (fun c => c.runbook_id) ∧
      headerCount ("A".toList)
        (format_context_for_llm
          [⟨"a1".toList, "A".toList, "TA".toList, "UA".toList, 1⟩,
           ⟨"b1".toList, "B".toList, "TB".toList, "UB".toList, 1⟩,
           ⟨"a2".toList, "A".toList, "TA".toList, "UA".toList, 1⟩]) = 1) ∧
    bodyTexts (format_context_for_llm
        [⟨"a1".toList, "A".toList, "TA".toList, "UA".toList, 1⟩,
         ⟨"b1".toList, "B".toList, "TB".toList, "UB".toList, 1⟩,
         ⟨"a2".toList, "A".toList, "TA".toList, "UA".toList, 1⟩]) =
      ["a1".toList, "b1".toList, "a2".toList] :=
  ⟨⟨by decide,
    context_headers_and_sources.1
      [⟨"a1".toList, "A".toList, "TA".toList, "UA".toList, 1⟩,
       ⟨"b1".toList, "B".toList, "TB".toList, "UB".toList, 1⟩,
       ⟨"a2".toList, "A".toList, "TA".toList, "UA".toList, 1⟩] ("A".toList) (by decide)⟩,
    by decide⟩

/-- Counterexample to C9 as stated: with retrieval order [A-chunk, B-chunk,
A-chunk], the second chunk of document A is appended after document B's
header, not concatenated beneath document A's header, so the produced context
differs from the grouped context the claim describes. -/
theorem context_c9_counterexample :
    format_context_for_llm
        [⟨"a1".toList, "A".toList, "TA".toList, "UA".toList, 1⟩,
         ⟨"b1".toList, "B".toList, "TB".toList, "UB".toList, 1⟩,
         ⟨"a2".toList, "A".toList, "TA".toList, "UA".toList, 1⟩] =
      [.header ("A".toList) ("TA".toList) ("UA".toList), .body ("a1".toList),
       .header ("B".toList) ("TB".toList) ("UB".toList), .body ("b1".toList),
       .body ("a2".toList)] ∧
    groupedContext
        [⟨"a1".toList, "A".toList, "TA".toList, "UA".toList, 1⟩,
         ⟨"b1".toList, "B".toList, "TB".toList, "UB".toList, 1⟩,
         ⟨"a2".toList, "A".toList, "TA".toList, "UA".toList, 1⟩] =
      [.header ("A".toList) ("TA".toList) ("UA".toList), .body ("a1".toList),
       .body ("a2".toList),
       .header ("B".toList) ("TB".toList) ("UB".toList), .body ("b1".toList)] ∧
    format_context_for_llm
        [⟨"a1".toList, "A".toList, "TA".toList, "UA".toList, 1⟩,
         ⟨"b1".toList, "B".toList, "TB".toList, "UB".toList, 1⟩,
         ⟨"a2".toList, "A".toList, "TA".toList, "UA".toList, 1⟩] ≠
      groupedContext
        [⟨"a1".toList, "A".toList, "TA".toList, "UA".toList, 1⟩,
         ⟨"b1".toList, "B".toList, "TB".toList, "UB".toList, 1⟩,
         ⟨"a2".toList, "A".toList, "TA".toList, "UA".toList, 1⟩] :=
  ⟨by decide, by decide, by decide⟩

/- ### Store lemmas (C2) -/

/-- Keys after one upsert: unchanged for an existing id, appended for a new
one. -/
theorem storeKeys_upsert1 (s : Store) (kv : Str × Str) :
    storeKeys (upsert1 s kv) =
      if kv.1 ∈ storeKeys s then storeKeys s else storeKeys s ++ [kv.1] := by
  by_cases h : kv.1 ∈ storeKeys s
  · rw [upsert1, if_pos h, if_pos h]
    rw [storeKeys, storeKeys, List.map_map]
    refine List.map_congr_left ?_
    intro e _
    by_cases he : e.1 = kv.1
    · simp [he]
    · simp [he]
  · rw [upsert1, if_neg h, if_neg h]
    simp [storeKeys]

/-- Record count after one upsert. -/
theorem length_upsert1 (s : Store) (kv : Str × Str) :
    (upsert1 s kv).length =
      if kv.1 ∈ storeKeys s then s.length else s.length + 1 := by
  by_cases h : kv.1 ∈ storeKeys s
  · rw [upsert1, if_pos h, if_pos h, List.length_map]
  · rw [upsert1, if_neg h, if_neg h, List.length_append]
    rfl

/-- An upserted id is present afterwards. -/
theorem mem_storeKeys_upsert1_self (s : Store) (kv : Str × Str) :
    kv.1 ∈ storeKeys (upsert1 s kv) := by
  rw [storeKeys_upsert1]
  by_cases h : kv.1 ∈ storeKeys s
  · rw [if_pos h]; exact h
  · rw [if_neg h]; simp

/-- Upserting never removes a present id. -/
theorem mem_storeKeys_upsert1_of (s : Store) (kv : Str × Str) (k : Str)
    (h : k ∈ storeKeys s) : k ∈ storeKeys (upsert1 s kv) := by
  rw [storeKeys_upsert1]
  by_cases h2 : kv.1 ∈ storeKeys s
  · rw [if_pos h2]; exact h
  · rw [if_neg h2]; simp [h]

/-- A batch upsert never removes a present id. -/
theorem mem_storeKeys_upsertAll_of (kvs : List (Str × Str)) :
    ∀ (s : Store) (k : Str), k ∈ storeKeys s → k ∈ storeKeys (upsertAll s kvs) := by
  induction kvs with
  | nil => intro s k h; exact h
  | cons kv rest ih =>
    intro s k h
    exact ih (upsert1 s kv) k (mem_storeKeys_upsert1_of s kv k h)

/-- After a batch upsert, every id of the batch is present. -/
theorem mem_storeKeys_upsertAll (kvs : List (Str × Str)) :
    ∀ (s : Store) (kv : Str × Str), kv ∈ kvs → kv.1 ∈ storeKeys (upsertAll s kvs) := by
  induction kvs with
  | nil => intro s kv h; simp at h
  | cons kv0 rest ih =>
    intro s kv h
    rcases List.mem_cons.mp h with rfl | h2
    · exact mem_storeKeys_upsertAll_of rest (upsert1 s kv) kv.1
        (mem_storeKeys_upsert1_self s kv)
    · exact ih (upsert1 s kv0) kv h2

/-- Upserting a batch whose ids are all already present changes neither the
key list nor the record count. -/
theorem upsertAll_stable (kvs : List (Str × Str)) :
    ∀ s : Store, (∀ kv ∈ kvs, kv.1 ∈ storeKeys s) →
      storeKeys (upsertAll s kvs) = storeKeys s ∧
        (upsertAll s kvs).length = s.length := by
  induction kvs with
  | nil => intro s _; exact ⟨rfl, rfl⟩
  | cons kv rest ih =>
    intro s h
    have hkv : kv.1 ∈ storeKeys s := h kv (List.mem_cons_self kv rest)
    have hkeys : storeKeys (upsert1 s kv) = storeKeys s := by
      rw [storeKeys_upsert1, if_pos hkv]
    have hlen : (upsert1 s kv).length = s.length := by
      rw [length_upsert1, if_pos hkv]
    have hrest : ∀ kv2 ∈ rest, kv2.1 ∈ storeKeys (upsert1 s kv) := by
      intro kv2 h2
      rw [hkeys]
      exact h kv2 (List.mem_cons_of_mem kv h2)
    obtain ⟨h1, h2⟩ := ih (upsert1 s kv) hrest
    exact ⟨by rw [show upsertAll s (kv :: rest) = upsertAll (upsert1 s kv) rest from rfl,
      h1, hkeys], by rw [show upsertAll s (kv :: rest) = upsertAll (upsert1 s kv) rest from rfl,
      h2, hlen]⟩

/-- Lookup after an in-place overwrite. -/
theorem find_map_overwrite (k : Str) (v : Str) :
    ∀ s : Store, k ∈ storeKeys s →
      (s.map (fun e => if e.1 = k then (k, v) else e)).find?
        (fun e => decide (e.1 = k)) = some (k, v) := by
  intro s
  induction s with
  | nil => intro h; simp [storeKeys] at h
  | cons e t ih =>
    intro h
    by_cases he : e.1 = k
    · simp [he]
    · rw [List.map_cons, if_neg he, List.find?_cons_of_neg _ (by simp [he])]
      refine ih ?_
      have hcons : storeKeys (e :: t) = e.1 :: storeKeys t := rfl
      rw [hcons] at h
      rcases List.mem_cons.mp h with h2 | h2
      · exact absurd h2.symm he
      · exact h2

/-- Lookup after an append of a fresh id. -/
theorem find_append_fresh (k : Str) (v : Str) :
    ∀ s : Store, k ∉ storeKeys s →
      (s ++ [(k, v)]).find? (fun e => decide (e.1 = k)) = some (k, v) := by
  intro s
  induction s with
  | nil => intro; simp
  | cons e t ih =>
    intro h
    have he : ¬e.1 = k := by
      intro h2
      have hcons : storeKeys (e :: t) = e.1 :: storeKeys t := rfl
      exact h (by rw [hcons, h2]; exact List.mem_cons_self k (storeKeys t))
    rw [List.cons_append, List.find?_cons_of_neg _ (by simp [he])]
    refine ih ?_
    intro h2
    have hcons : storeKeys (e :: t) = e.1 :: storeKeys t := rfl
    rw [hcons] at h
    exact h (List.mem_cons_of_mem e.1 h2)

/-- Upserting a record makes it the one found under its id: the overwrite
semantics of the id key. -/
theorem lookupStore_upsert1 (s : Store) (k v : Str) :
    lookupStore (upsert1 s (k, v)) k = some v := by
  by_cases h : k ∈ storeKeys s
  · rw [lookupStore, upsert1, if_pos h, find_map_overwrite k v s h]
    rfl
  · rw [lookupStore, upsert1, if_neg h, find_append_fresh k v s h]
    rfl

/-- C2 (amended): re-running `embed_and_store` with the same chunk records
leaves the store with the same key list and the same record count (the
idempotency the claim asserts for unchanged content); the record ids of a
document's chunks are exactly `{document_id}_{chunk_index}`; and a record
with an existing id overwrites the stored record under that id.  No deletion
of a document's records happens before re-insertion — see the claim's
counterexample for the stale record this leaves when the chunk count
shrinks. -/
theorem embed_and_store_idempotent :
    (∀ (s : Store) (cds : List (Str × Str)),
      storeKeys (embed_and_store (embed_and_store s cds) cds) =
          storeKeys (embed_and_store s cds) ∧
        (embed_and_store (embed_and_store s cds) cds).length =
          (embed_and_store s cds).length) ∧
    (∀ (d : Str) (cs : List Str),
      (chunk_datas_of d cs).map (fun e => e.1) =
        (List.range cs.length).map (chunkId d)) ∧
    (∀ (s : Store) (k v : Str), lookupStore (upsert1 s (k, v)) k = some v) := by
  refine ⟨?_, ?_, fun s k v => lookupStore_upsert1 s k v⟩
  · intro s cds
    exact upsertAll_stable cds (embed_and_store s cds)
      (fun kv hkv => mem_storeKeys_upsertAll cds s kv hkv)
  · intro d cs
    rw [chunk_datas_of, List.map_map]
    have hlen : (List.range cs.length).length ≤ cs.length := by simp
    calc ((List.range cs.length).zip cs).map
          ((fun e => e.1) ∘ fun p => (chunkId d p.1, p.2))
        = ((List.range cs.length).zip cs).map (fun p => chunkId d p.1) := rfl
      _ = (((List.range cs.length).zip cs).map Prod.fst).map (chunkId d) := by
          rw [List.map_map]; rfl
      _ = (List.range cs.length).map (chunkId d) := by
          rw [List.map_fst_zip _ _ hlen]

/-- Counterexample to C2 as stated: index document A with three chunks, then
re-index it with two chunks.  No deletion precedes the re-insertion, so the
stale record A_2 of the first pass is still present (and found by lookup)
after the second pass, and the store still holds 3 records. -/
theorem embed_and_store_c2_counterexample :
    lookupStore
        (embed_and_store
          (embed_and_store []
            (chunk_datas_of ("A".toList) ["t0".toList, "t1".toList, "t2".toList]))
          (chunk_datas_of ("A".toList) ["u0".toList, "u1".toList]))
        (chunkId ("A".toList) 2) = some ("t2".toList) ∧
      (embed_and_store
          (embed_and_store []
            (chunk_datas_of ("A".toList) ["t0".toList, "t1".toList, "t2".toList]))
          (chunk_datas_of ("A".toList) ["u0".toList, "u1".toList])).length = 3 :=
  ⟨by decide, by decide⟩
